import Mathlib

/-
Verification of the branch-and-bound solver in
src/assignments/assignment-2/bab/bab_starter.py.

Shallow embedding notes.

* Variables.  picos RealVariable objects are identified by natural-number
  ids.  A node stores the list of variable ids (field vars); the last entry
  is the objective carrier, and the field objective holds the id of the
  variable being maximized.  Crucially, BBTreeNode.__deepcopy__ passes
  self.vars and self.objective through unchanged, and picos Problem.clone
  produces a problem over the same variable objects, so every node of a run
  shares one set of variable objects.  A solve writes the solution values
  onto those shared objects.  We model this by a single cached valuation
  (field vals of the loop state, a list of rationals indexed by variable
  id) that each successful oracle call overwrites.

* Numbers.  Python floats are modelled by rationals.  The sentinel -1e20
  and all values used in examples are exactly representable as floats, so
  nothing is lost.  Python round rounds half to even while Mathlib round
  rounds half up; the code only uses round through the predicate
  abs(round(x) - x) <= 1e-4, and at half-integers both conventions give
  distance 1/2 > 1e-4, so the predicate is identical.

* The relaxation solver (picos Problem.solve with cvxopt) is an external
  collaborator; it is modelled by an oracle mapping a constraint list to
  Optimal (with a full valuation: picos assigns every variable a value on
  success), Infeasible, or SolverError.  With cvxopt picos raises an
  exception for the two failure outcomes; the child solves at lines
  156-166 sit in try/except blocks (so failures skip the push), while the
  root solve at line 120 has no handler, so a failure there propagates out
  of bbsolve.  The comparison at lines 157 and 163 of the returned
  Solution object against the string "infeasible" is always true, so a
  returning solve always pushes.

* The heap.  Python heapq is a binary min-heap over tuples; heappop
  returns the tuple that is smallest in lexicographic order.  We model the
  heap extensionally as the list of entries and heappop as removal of the
  entry with the least (key, counter) pair; counters are unique in every
  run, so the node component never takes part in a comparison.  The root
  entry at line 121 stores the Solution object returned by the root solve
  as its key; that key is never compared (the root is the sole entry when
  it is popped), so it is modelled by the rational 0.
-/

namespace BaB

/- The Batteries rational operations are irreducible by default, which
blocks kernel evaluation of the concrete runs below; making them
semireducible again lets decide compute with exact rationals. -/
attribute [local semireducible] Rat.add Rat.mul Rat.inv Rat.sub Rat.ofScientific

/-- Constraints of a node: the two bound shapes added by branching, plus
opaque caller constraints identified by a tag. -/
inductive Constr where
  | le (v : Nat) (b : ℤ)
  | ge (v : Nat) (b : ℤ)
  | base (tag : Nat)
deriving DecidableEq

/-- Outcome contract of one relaxation solve.  On success picos assigns a
value to every variable, hence a total valuation (list indexed by variable
id).  The two failure outcomes raise with cvxopt. -/
inductive OracleResult where
  | optimal (vals : List ℚ)
  | infeasible
  | solverError
deriving DecidableEq

/-- The external relaxation solver, as a function of the constraint set of
the problem being solved (the objective is fixed for the whole run by
buildProblem). -/
abbrev Oracle := List Constr → OracleResult

/-- BBTreeNode (lines 13-49): shared variable ids, the constraint list of
the picos problem of this node, and the id of the objective variable. -/
structure BBTreeNode where
  vars : List Nat
  constraints : List Constr
  objective : Nat
deriving DecidableEq

/-- The fractionality test used at lines 75 and 146:
abs(round(value) - value) > 1e-4. -/
def isFrac (q : ℚ) : Bool :=
  decide ((1 : ℚ) / 10000 < |(round q : ℚ) - q|)

/-- is_integral (lines 65-77): every variable except the last has a
defined cached value within 1e-4 of round of it.  The valuation argument
uses Option so that the value-is-None branch of line 75 is represented;
inside bbsolve the cached valuation is total (see the model notes). -/
def is_integral (vars : List Nat) (vals : List (Option ℚ)) : Bool :=
  vars.dropLast.all fun v =>
    match vals.getD v none with
    | none => false
    | some q => ! isFrac q

/-- Branch-variable selection (lines 144-149): chosen_var starts as
vars[0] and the loop scans the FULL variable list (the objective carrier
included) for the first fractional value.  The Python code raises on an
empty variable list; headD stands in for vars[0] there. -/
def selectBranchVar (vars : List Nat) (vals : List ℚ) : Nat :=
  match vars.find? (fun v => isFrac (vals.getD v 0)) with
  | some v => v
  | none => vars.headD 0

/-- branch_floor (lines 79-92): deepcopy the node (clone keeps the shared
variable objects and the objective, copies the constraint collection) and
add the bound chosen_var <= floor(value read from the cached valuation). -/
def branch_floor (n : BBTreeNode) (v : Nat) (vals : List ℚ) : BBTreeNode :=
  ⟨n.vars, n.constraints ++ [Constr.le v ⌊vals.getD v 0⌋], n.objective⟩

/-- branch_ceil (lines 94-107): same with chosen_var >= ceil(value). -/
def branch_ceil (n : BBTreeNode) (v : Nat) (vals : List ℚ) : BBTreeNode :=
  ⟨n.vars, n.constraints ++ [Constr.ge v ⌈vals.getD v 0⌉], n.objective⟩

/-- A frontier entry (line 121, 158, 164): (priority key, counter, node). -/
abbrev HeapEntry := ℚ × Nat × BBTreeNode

/-- Lexicographic order on (key, counter) used by heapq tuple comparison.
Counters are unique in every run, so the node component is never
compared. -/
def entryLE (a b : HeapEntry) : Bool :=
  decide (a.1 < b.1) || (decide (a.1 = b.1) && decide (a.2.1 ≤ b.2.1))

/-- Extensional model of heapq.heappop: remove the entry that is least in
the (key, counter) order, keeping the rest in place.  On an exact tie of
key and counter (impossible in a run) the earlier entry wins. -/
def popMin : List HeapEntry → Option (HeapEntry × List HeapEntry)
  | [] => none
  | e :: es =>
    match popMin es with
    | none => some (e, [])
    | some (m, r) => if entryLE e m then some (e, es) else some (m, e :: r)

/-- The sentinel initial incumbent of line 124, -1e20 (exact as a float). -/
def initBest : ℚ := -(10 ^ 20)

/-- State of the while loop of bbsolve (lines 121-170).  vals is the
shared cached valuation written by the most recent successful solve;
ncalls counts attempted oracle calls (an observable for the pruning
claims and Scenario C of the spec). -/
structure LoopState where
  heap : List HeapEntry
  bestres : ℚ
  bestnodeVars : List Nat
  vals : List ℚ
  counter : Nat
  ncalls : Nat
deriving DecidableEq

/-- thisres.objective.value, read from the shared cached valuation. -/
def objValOf (n : BBTreeNode) (vals : List ℚ) : ℚ :=
  vals.getD n.objective 0

/-- Lines 156-166 for one child: attempt the solve (counted); on success
overwrite the shared valuation and push (bestres, next(counter), child);
on a raised failure the except swallows it and nothing is pushed. -/
def pushChild (oracle : Oracle) (key : ℚ) (child : BBTreeNode)
    (s : LoopState) : LoopState :=
  match oracle child.constraints with
  | .optimal v =>
      { s with heap := s.heap ++ [(key, s.counter, child)], vals := v,
               counter := s.counter + 1, ncalls := s.ncalls + 1 }
  | _ => { s with ncalls := s.ncalls + 1 }

/-- One iteration of the while loop (lines 129-170): pop the least entry;
if the cached valuation is integral, overwrite bestres and bestnode_vars
unconditionally (lines 136-138); else if the cached objective value beats
bestres, select a branch variable from the cached valuation, build both
children from it, then solve and push each in turn (lines 141-166); else
discard the node (lines 168-170).  Returns none when the heap is empty. -/
def bbIter (oracle : Oracle) (s : LoopState) : Option LoopState :=
  match popMin s.heap with
  | none => none
  | some ((_, _, node), rest) =>
    if is_integral node.vars (s.vals.map some) then
      some { s with heap := rest, bestres := objValOf node s.vals,
                    bestnodeVars := node.vars }
    else if s.bestres < objValOf node s.vals then
      let chosen := selectBranchVar node.vars s.vals
      let n1 := branch_floor node chosen s.vals
      let n2 := branch_ceil node chosen s.vals
      some (pushChild oracle s.bestres n2
             (pushChild oracle s.bestres n1 { s with heap := rest }))
    else
      some { s with heap := rest }

/-- The while loop, driven by fuel (the Python loop has no bound of its
own).  none means the fuel ran out before the heap emptied; some returns
(bestres, bestnode_vars, final cached valuation) as at line 172 - the
values of the returned variable objects are the final cached ones. -/
def bbLoop (oracle : Oracle) : Nat → LoopState → Option (ℚ × List Nat × List ℚ)
  | 0, _ => none
  | fuel + 1, s =>
    match bbIter oracle s with
    | none => some (s.bestres, s.bestnodeVars, s.vals)
    | some s' => bbLoop oracle fuel s'

/-- Lines 118-127: build the root problem, solve it (no try/except: a
failure raises out of bbsolve), seed the heap with the root entry whose
key is the returned Solution object (never compared, modelled by 0),
consume counter 0, set bestres to the sentinel and bestnode_vars to the
root vars. -/
def bbInit (oracle : Oracle) (root : BBTreeNode) : Except Unit LoopState :=
  match oracle root.constraints with
  | .optimal v =>
      .ok { heap := [(0, 0, root)], bestres := initBest,
            bestnodeVars := root.vars, vals := v, counter := 1, ncalls := 1 }
  | _ => .error ()

/-- bbsolve (lines 109-172).  Except.error is a raised exception; ok none
is fuel exhaustion; ok (some r) is the returned triple. -/
def bbsolve (oracle : Oracle) (root : BBTreeNode) (fuel : Nat) :
    Except Unit (Option (ℚ × List Nat × List ℚ)) :=
  match bbInit oracle root with
  | .ok s => .ok (bbLoop oracle fuel s)
  | .error e => .error e

instance {ε α : Type} [DecidableEq ε] [DecidableEq α] : DecidableEq (Except ε α) :=
  fun x y =>
    match x, y with
    | .ok a, .ok b =>
        if h : a = b then isTrue (h ▸ rfl)
        else isFalse fun hc => Except.noConfusion hc fun h2 => h h2
    | .ok _, .error _ => isFalse fun hc => Except.noConfusion hc
    | .error _, .ok _ => isFalse fun hc => Except.noConfusion hc
    | .error a, .error b =>
        if h : a = b then isTrue (h ▸ rfl)
        else isFalse fun hc => Except.noConfusion hc fun h2 => h h2

/-
Concrete problems used as run witnesses and counterexamples.  Variable 0
is the decision variable x, variable 1 is the objective carrier z.
-/

/-- Run A root: an LP whose relaxation is already integral with objective
value -2e20, below the sentinel of line 124 (for instance maximize z
subject to z == -2e20 and x == 0; the caller constraints are opaque to
the search and carried as tag 0). -/
def rootA : BBTreeNode := ⟨[0, 1], [Constr.base 0], 1⟩

/-- Oracle for run A: the root relaxation is optimal at x = 0,
z = -2e20. -/
def oracleA : Oracle := fun cs =>
  if cs = [Constr.base 0] then .optimal [0, -(2 * 10 ^ 20)] else .infeasible

/-- The loop state right after initialization in run A. -/
def sA0 : LoopState :=
  { heap := [(0, 0, rootA)], bestres := initBest, bestnodeVars := [0, 1],
    vals := [0, -(2 * 10 ^ 20)], counter := 1, ncalls := 1 }

/-- Run B root, Scenario B of the spec: constraints x >= 5 and x <= 1,
an empty feasible region. -/
def rootB : BBTreeNode := ⟨[0, 1], [Constr.ge 0 5, Constr.le 0 1], 1⟩

/-- Oracle for run B: the root relaxation is infeasible. -/
def oracleB : Oracle := fun cs =>
  if cs = [Constr.ge 0 5, Constr.le 0 1] then .infeasible else .solverError

/-- Run C root: a relaxation with optimum x = 1/2, z = 5 (caller
constraints carried as tag 2). -/
def rootC : BBTreeNode := ⟨[0, 1], [Constr.base 2], 1⟩

/-- The floor child built in run C: x <= floor(1/2) = 0. -/
def n1C : BBTreeNode := ⟨[0, 1], [Constr.base 2, Constr.le 0 0], 1⟩

/-- The ceiling child built in run C: x >= ceil(1/2) = 1. -/
def n2C : BBTreeNode := ⟨[0, 1], [Constr.base 2, Constr.ge 0 1], 1⟩

/-- Oracle for run C: the root region has optimum (1/2, 5); restricted to
x <= 0 the optimum is (-1/2, 4), still fractional; restricted to x >= 1
the optimum is (1, 3), integral.  All three are consistent with one
convex program. -/
def oracleC : Oracle := fun cs =>
  if cs = [Constr.base 2] then .optimal [1 / 2, 5]
  else if cs = [Constr.base 2, Constr.le 0 0] then .optimal [-(1 / 2), 4]
  else if cs = [Constr.base 2, Constr.ge 0 1] then .optimal [1, 3]
  else .infeasible

/-- Run C state after initialization. -/
def sC0 : LoopState :=
  { heap := [(0, 0, rootC)], bestres := initBest, bestnodeVars := [0, 1],
    vals := [1 / 2, 5], counter := 1, ncalls := 1 }

/-- Run C state after the first iteration: the fractional root was
expanded, both children were solved (the second solve overwrote the
shared valuation with (1, 3)) and both were pushed with the sentinel
incumbent as key. -/
def sC1 : LoopState :=
  { heap := [(initBest, 1, n1C), (initBest, 2, n2C)], bestres := initBest,
    bestnodeVars := [0, 1], vals := [1, 3], counter := 3, ncalls := 3 }

/-- Run C state after the second iteration: the popped floor child was
treated as integral because the cached valuation belongs to the ceiling
child, and the incumbent was set from that cached valuation. -/
def sC2 : LoopState :=
  { heap := [(initBest, 2, n2C)], bestres := 3, bestnodeVars := [0, 1],
    vals := [1, 3], counter := 3, ncalls := 3 }

/-- A node used to populate counterexample frontiers. -/
def nLow : BBTreeNode := ⟨[0, 1], [Constr.base 7], 1⟩

/-- A second node used to populate counterexample frontiers. -/
def nHigh : BBTreeNode := ⟨[0, 1], [Constr.base 8], 1⟩

/-- A loop state whose frontier holds keys 2 and 1; the cached valuation
is integral, so the iteration only pops and updates the incumbent. -/
def sD : LoopState :=
  { heap := [(2, 0, nHigh), (1, 1, nLow)], bestres := 0,
    bestnodeVars := [0, 1], vals := [0, 0], counter := 2, ncalls := 1 }
/-- The selection the claim describes, for comparison with the code:
scan the variables in declared order EXCLUDING the objective carrier and
return the first fractional one; if none is fractional, return the first
variable.  This definition follows the wording of the claim and of spec
section 4.1, not the code. -/
def selectBranchVarSpec (vars : List Nat) (vals : List ℚ) : Nat :=
  match vars.dropLast.find? (fun v => isFrac (vals.getD v 0)) with
  | some v => v
  | none => vars.headD 0
/-- Satisfaction of one constraint by an assignment of rationals to
variable ids; baseSem interprets the opaque caller constraints. -/
def Constr.sat (baseSem : Nat → (Nat → ℚ) → Prop) (a : Nat → ℚ) :
    Constr → Prop
  | .le v b => a v ≤ (b : ℚ)
  | .ge v b => (b : ℚ) ≤ a v
  | .base t => baseSem t a

/-- Satisfaction of every constraint of a list (the feasible region of a
node is the set of assignments satisfying all its constraints). -/
def satAll (baseSem : Nat → (Nat → ℚ) → Prop) (cs : List Constr)
    (a : Nat → ℚ) : Prop :=
  ∀ c ∈ cs, Constr.sat baseSem a c
/-- A node used as the parent in the C8 witness, with one opaque caller
constraint. -/
def nE : BBTreeNode := ⟨[0, 1], [Constr.base 3], 1⟩
/-
C9.  Clone isolation.  branch_floor and branch_ceil go through
__deepcopy__ (lines 39-49), which calls picos Problem.clone and wraps the
clone in a fresh node, and then add a constraint to the CLONE only
(lines 91, 106).  To state isolation of the mutable constraint
collections we give problems identities in a store: a store is the list
of the constraint collections of all live picos problems, a problem is
an index into it, cloning appends a copy of the collection as a fresh
problem, and add_constraint mutates one collection in place. -/

/-- The heap of live picos problems: probs[pid] is the mutable constraint
collection of problem pid. -/
structure PicosStore where
  probs : List (List Constr)
deriving DecidableEq

/-- picos Problem.clone as used by __deepcopy__ (line 48): allocate a
fresh problem whose constraint collection is a copy of the cloned one;
returns the new store and the fresh problem id. -/
def cloneProb (s : PicosStore) (pid : Nat) : PicosStore × Nat :=
  (⟨s.probs ++ [s.probs.getD pid []]⟩, s.probs.length)

/-- picos Problem.add_constraint (lines 91 and 106): append one
constraint to the collection of problem pid, in place. -/
def add_constraint (s : PicosStore) (pid : Nat) (c : Constr) : PicosStore :=
  ⟨s.probs.set pid (s.probs.getD pid [] ++ [c])⟩

/-- branch_floor at the store level (lines 89-92): clone, then add the
floor bound to the clone; returns the new store and the child problem. -/
def branchFloorS (s : PicosStore) (pid v : Nat) (x : ℚ) : PicosStore × Nat :=
  (add_constraint (cloneProb s pid).1 (cloneProb s pid).2 (Constr.le v ⌊x⌋),
   (cloneProb s pid).2)

/-- branch_ceil at the store level (lines 104-107). -/
def branchCeilS (s : PicosStore) (pid v : Nat) (x : ℚ) : PicosStore × Nat :=
  (add_constraint (cloneProb s pid).1 (cloneProb s pid).2 (Constr.ge v ⌈x⌉),
   (cloneProb s pid).2)
/-- A one-problem store used in the C9 witness. -/
def sF : PicosStore := ⟨[[Constr.base 0]]⟩
/-- Run A state after the single iteration: the incumbent was overwritten
with the integral relaxation value -2e20, BELOW the sentinel. -/
def sA1 : LoopState :=
  { heap := [], bestres := -(2 * 10 ^ 20), bestnodeVars := [0, 1],
    vals := [0, -(2 * 10 ^ 20)], counter := 1, ncalls := 1 }

/-
Helper lemmas about the heap order and the loop step.
-/

theorem entryLE_iff (a b : HeapEntry) :
    entryLE a b = true ↔ (a.1 < b.1 ∨ (a.1 = b.1 ∧ a.2.1 ≤ b.2.1)) := by
  simp [entryLE]

theorem entryLE_refl (a : HeapEntry) : entryLE a a = true := by
  simp [entryLE]

theorem entryLE_total (a b : HeapEntry) (h : entryLE a b = false) :
    entryLE b a = true := by
  rw [entryLE_iff]
  have h' := h
  simp only [entryLE, Bool.or_eq_false_iff, Bool.and_eq_false_iff,
    decide_eq_false_iff_not] at h'
  rcases h' with ⟨hlt, hand⟩
  by_cases he : a.1 = b.1
  · rcases hand with hq | hr
    · exact absurd he (by simpa using hq)
    · exact Or.inr ⟨he.symm, le_of_not_le (by simpa using hr)⟩
  · exact Or.inl (lt_of_le_of_ne (le_of_not_lt hlt) fun e => he e.symm)

theorem entryLE_trans (a b c : HeapEntry) (hab : entryLE a b = true)
    (hbc : entryLE b c = true) : entryLE a c = true := by
  rw [entryLE_iff] at hab hbc ⊢
  rcases hab with h1 | ⟨h1, h2⟩ <;> rcases hbc with h3 | ⟨h3, h4⟩
  · exact Or.inl (lt_trans h1 h3)
  · exact Or.inl (h3 ▸ h1)
  · exact Or.inl (h1 ▸ h3)
  · exact Or.inr ⟨h1.trans h3, le_trans h2 h4⟩

theorem popMin_cons_ne_none (e : HeapEntry) (es : List HeapEntry) :
    popMin (e :: es) ≠ none := by
  cases h : popMin es with
  | none => simp [popMin, h]
  | some p =>
    obtain ⟨m, r⟩ := p
    simp only [popMin, h]
    split <;> simp

theorem popMin_spec {l : List HeapEntry} {e : HeapEntry} {r : List HeapEntry}
    (h : popMin l = some (e, r)) :
    e ∈ l ∧ (∀ x ∈ l, entryLE e x = true) ∧ ∀ x ∈ r, x ∈ l := by
  induction l generalizing e r with
  | nil => simp [popMin] at h
  | cons a as ih =>
    cases hp : popMin as with
    | none =>
      have has : as = [] := by
        cases as with
        | nil => rfl
        | cons b bs => exact absurd hp (popMin_cons_ne_none b bs)
      subst has
      simp only [popMin] at h
      obtain ⟨he, hr⟩ := Option.some.inj h |> Prod.mk.inj
      subst he; subst hr
      exact ⟨List.mem_singleton.mpr rfl,
        fun x hx => by rw [List.mem_singleton.mp hx]; exact entryLE_refl a,
        by simp⟩
    | some p =>
      obtain ⟨m, rr⟩ := p
      obtain ⟨hmem, hmin, hsub⟩ := ih hp
      simp only [popMin, hp] at h
      by_cases hle : entryLE a m = true
      · rw [if_pos hle] at h
        obtain ⟨he, hr⟩ := Option.some.inj h |> Prod.mk.inj
        subst he; subst hr
        refine ⟨List.mem_cons_self _ _, ?_, fun x hx => List.mem_cons_of_mem _ hx⟩
        intro x hx
        rcases List.mem_cons.mp hx with hx | hx
        · rw [hx]; exact entryLE_refl a
        · exact entryLE_trans _ _ _ hle (hmin x hx)
      · rw [if_neg hle] at h
        obtain ⟨he, hr⟩ := Option.some.inj h |> Prod.mk.inj
        subst he; subst hr
        have hma := entryLE_total a m (Bool.not_eq_true _ ▸ hle)
        refine ⟨List.mem_cons_of_mem _ hmem, ?_, ?_⟩
        · intro x hx
          rcases List.mem_cons.mp hx with hx | hx
          · rw [hx]; exact hma
          · exact hmin x hx
        · intro x hx
          rcases List.mem_cons.mp hx with hx | hx
          · rw [hx]; exact List.mem_cons_self _ _
          · exact List.mem_cons_of_mem _ (hsub x hx)

theorem pushChild_heap_mem (oracle : Oracle) (k : ℚ) (ch : BBTreeNode)
    (st : LoopState) :
    ∀ e ∈ (pushChild oracle k ch st).heap,
      e ∈ st.heap ∨ (e.1 = k ∧ e.2.2 = ch) := by
  intro e he
  unfold pushChild at he
  cases h : oracle ch.constraints with
  | optimal v =>
    rw [h] at he
    simp only [List.mem_append, List.mem_singleton] at he
    rcases he with he | he
    · exact Or.inl he
    · exact Or.inr (by rw [he]; exact ⟨rfl, rfl⟩)
  | infeasible => rw [h] at he; exact Or.inl he
  | solverError => rw [h] at he; exact Or.inl he

theorem pushChild_bestres (oracle : Oracle) (k : ℚ) (ch : BBTreeNode)
    (st : LoopState) : (pushChild oracle k ch st).bestres = st.bestres := by
  unfold pushChild
  cases oracle ch.constraints <;> rfl

theorem pushChild_bestnodeVars (oracle : Oracle) (k : ℚ) (ch : BBTreeNode)
    (st : LoopState) :
    (pushChild oracle k ch st).bestnodeVars = st.bestnodeVars := by
  unfold pushChild
  cases oracle ch.constraints <;> rfl

theorem pushChild_ncalls (oracle : Oracle) (k : ℚ) (ch : BBTreeNode)
    (st : LoopState) : (pushChild oracle k ch st).ncalls = st.ncalls + 1 := by
  unfold pushChild
  cases oracle ch.constraints <;> rfl

/-
C3.  The claim says the loop pops the entry with the best key, meaning
the HIGHEST objective value.  Python heapq is a min-heap: heappop returns
the entry with the SMALLEST key (ties broken by smallest counter, which
the claim states correctly).
-/

/-- C3 counterexample: on a frontier with keys 2 and 1 the iteration
removes the key-1 entry (the smallest), leaving the key-2 entry in the
frontier, while the claim says the popped entry is the one with the
highest key. -/
theorem pop_smallest_counterexample :
    bbIter (fun _ => OracleResult.infeasible) sD =
      some { sD with heap := [(2, 0, nHigh)] } ∧ (1 : ℚ) < 2 := by decide

/-- C3 (amended): each pop removes an entry of the frontier that is
lexicographically least: its key is strictly below every other key, or
equal with a counter at most the other counter (first pushed wins). -/
theorem pop_returns_min_key (l : List HeapEntry) (e : HeapEntry)
    (r : List HeapEntry) (h : popMin l = some (e, r)) :
    e ∈ l ∧ ∀ x ∈ l, e.1 < x.1 ∨ (e.1 = x.1 ∧ e.2.1 ≤ x.2.1) := by
  obtain ⟨hmem, hmin, _⟩ := popMin_spec h
  exact ⟨hmem, fun x hx => (entryLE_iff e x).mp (hmin x hx)⟩

/-- Witness for the amended C3 theorem on the concrete frontier of sD:
the popped key-1 entry is in the frontier and is below the key-2 entry. -/
theorem pop_returns_min_key_witness :
    ((1 : ℚ), 1, nLow) ∈ sD.heap ∧
      ((1 : ℚ) < 2 ∨ ((1 : ℚ) = 2 ∧ 1 ≤ 0)) :=
  ⟨(pop_returns_min_key sD.heap (1, 1, nLow) [(2, 0, nHigh)] (by decide)).1,
   (pop_returns_min_key sD.heap (1, 1, nLow) [(2, 0, nHigh)] (by decide)).2
      (2, 0, nHigh) (by decide)⟩

/-
C6.  is_integral is true iff every variable but the objective carrier has
a defined cached value within 1e-4 of its nearest integer.
-/

/-- Being within a nonnegative tolerance of the value returned by round
is the same as being within that tolerance of some integer, because round
yields a nearest integer. -/
theorem near_round_iff_near_int (q eps : ℚ) :
    |(round q : ℚ) - q| ≤ eps ↔ ∃ n : ℤ, |q - (n : ℚ)| ≤ eps := by
  constructor
  · intro h
    exact ⟨round q, by rwa [abs_sub_comm] at h⟩
  · rintro ⟨n, hn⟩
    calc |(round q : ℚ) - q| = |q - (round q : ℚ)| := abs_sub_comm _ _
      _ ≤ |q - (n : ℚ)| := round_le q n
      _ ≤ eps := hn

/-- C6: is_integral returns true iff every variable except the objective
carrier (the last of the ordered variable list) has a defined cached
value within 1e-4 of its nearest integer; in particular it returns false
whenever one of those values is undefined. -/
theorem is_integral_iff (vars : List Nat) (vals : List (Option ℚ)) :
    is_integral vars vals = true ↔
      ∀ v ∈ vars.dropLast, ∃ q : ℚ, vals.getD v none = some q ∧
        ∃ n : ℤ, |q - (n : ℚ)| ≤ 1 / 10000 := by
  unfold is_integral
  rw [List.all_eq_true]
  constructor
  · intro h v hv
    have hz := h v hv
    cases hq : vals.getD v none with
    | none => rw [hq] at hz; simp at hz
    | some q =>
      rw [hq] at hz
      simp only [Bool.not_eq_true'] at hz
      refine ⟨q, rfl, ?_⟩
      rw [← near_round_iff_near_int q _]
      unfold isFrac at hz
      rw [decide_eq_false_iff_not] at hz
      exact le_of_not_lt hz
  · intro h v hv
    obtain ⟨q, hq, hn⟩ := h v hv
    rw [hq]
    have hle : |(round q : ℚ) - q| ≤ 1 / 10000 :=
      (near_round_iff_near_int q _).mpr hn
    have : isFrac q = false := by
      unfold isFrac
      rw [decide_eq_false_iff_not]
      exact not_lt_of_le hle
    simp [this]

/-- Witness for C6 at a concrete valuation: a defined value 1/2 is not
within 1e-4 of an integer, so is_integral is false there, while the
valuation (1, 3/2) is integral on the non-objective prefix. -/
theorem is_integral_iff_witness :
    is_integral [0, 1] [some 1, some (3 / 2)] = true ∧
    is_integral [0, 1] [some (1 / 2), some 3] = false :=
  ⟨(is_integral_iff [0, 1] [some 1, some (3 / 2)]).mpr (by
      intro v hv
      simp only [List.dropLast, List.mem_singleton] at hv
      subst hv
      exact ⟨1, rfl, 1, by norm_num⟩),
   by decide⟩

/-
C7.  The claim says branch-variable selection scans the variables
excluding the objective carrier and falls back to the first variable.
The loop at lines 145-149 iterates over the FULL list thisres.vars, so
the objective carrier itself can be selected.
-/

/-- C7 counterexample: with x (variable 0) integral at 1 and the
objective carrier z (variable 1) fractional at 3/2, the code selects the
objective carrier, while the selection described by the claim returns
the first variable. -/
theorem select_scans_objective_counterexample :
    selectBranchVar [0, 1] [1, 3 / 2] = 1 ∧
    selectBranchVarSpec [0, 1] [1, 3 / 2] = 0 ∧
    selectBranchVar [0, 1] [1, 3 / 2] ≠ selectBranchVarSpec [0, 1] [1, 3 / 2] := by
  decide

/-- C7 (amended): the selection scans the FULL variable list in declared
order, the objective carrier included, and returns the first variable
whose value is fractional by the 1e-4 test; if no variable at all is
fractional it returns the first variable. -/
theorem select_first_fractional_full_scan (vars : List Nat) (vals : List ℚ) :
    (∀ l₁ v l₂, vars = l₁ ++ v :: l₂ →
        (∀ u ∈ l₁, isFrac (vals.getD u 0) = false) →
        isFrac (vals.getD v 0) = true →
        selectBranchVar vars vals = v)
    ∧ ((∀ u ∈ vars, isFrac (vals.getD u 0) = false) →
        selectBranchVar vars vals = vars.headD 0) := by
  constructor
  · intro l₁ v l₂ hsplit hnone hv
    subst hsplit
    unfold selectBranchVar
    have h1 : l₁.find? (fun u => isFrac (vals.getD u 0)) = none :=
      List.find?_eq_none.mpr (by simpa using hnone)
    rw [List.find?_append, h1, Option.none_or,
      List.find?_cons_of_pos l₂
        (show (fun u => isFrac (vals.getD u 0)) v = true from hv)]
  · intro hall
    unfold selectBranchVar
    rw [List.find?_eq_none.mpr (by simpa using hall)]

/-- Witness for the amended C7 theorem: the fractional first variable is
selected, and with no fractional variable the first is returned. -/
theorem select_first_fractional_full_scan_witness :
    selectBranchVar [0, 1] [1 / 2, 0] = 0 ∧ selectBranchVar [0, 1] [1, 0] = 0 :=
  ⟨(select_first_fractional_full_scan [0, 1] [1 / 2, 0]).1 [] 0 [1] rfl
      (by simp) (by decide),
   (select_first_fractional_full_scan [0, 1] [1, 0]).2 (by decide)⟩

/-
C8.  The floor and ceiling children partition the integer points of the
parent region.  Constraint satisfaction gives the bound constraints their
arithmetic meaning; the opaque caller constraints get their meaning from
a semantics parameter, which the partition argument never inspects.
-/

theorem satAll_append_singleton (baseSem : Nat → (Nat → ℚ) → Prop)
    (cs : List Constr) (c : Constr) (a : Nat → ℚ) :
    satAll baseSem (cs ++ [c]) a ↔ satAll baseSem cs a ∧ Constr.sat baseSem a c := by
  simp [satAll, or_imp, forall_and]

/-- C8: when the branching value is fractional, no assignment satisfies
both children of branch_floor and branch_ceil (the added bounds exclude
each other), and every point of the parent region that gives the
branching variable an integer value satisfies one of the two children
(so no integer point of the parent is lost); together the two parts give
exactly one. -/
theorem branch_partition (baseSem : Nat → (Nat → ℚ) → Prop)
    (n : BBTreeNode) (v : Nat) (vals : List ℚ)
    (hfrac : vals.getD v 0 ≠ ((⌊vals.getD v 0⌋ : ℤ) : ℚ)) :
    (∀ a : Nat → ℚ, ¬(satAll baseSem (branch_floor n v vals).constraints a ∧
        satAll baseSem (branch_ceil n v vals).constraints a))
    ∧ (∀ (a : Nat → ℚ) (m : ℤ), a v = (m : ℚ) →
        satAll baseSem n.constraints a →
        satAll baseSem (branch_floor n v vals).constraints a ∨
        satAll baseSem (branch_ceil n v vals).constraints a) := by
  set x := vals.getD v 0 with hx
  constructor
  · rintro a ⟨hfl, hce⟩
    rw [branch_floor, satAll_append_singleton] at hfl
    rw [branch_ceil, satAll_append_singleton] at hce
    have h1 : a v ≤ ((⌊x⌋ : ℤ) : ℚ) := hfl.2
    have h2 : ((⌈x⌉ : ℤ) : ℚ) ≤ a v := hce.2
    have hcf : ((⌈x⌉ : ℤ) : ℚ) ≤ ((⌊x⌋ : ℤ) : ℚ) := le_trans h2 h1
    have hxf : x ≤ ((⌊x⌋ : ℤ) : ℚ) := le_trans (Int.le_ceil x) hcf
    exact hfrac (le_antisymm hxf (Int.floor_le x))
  · intro a m ham hpar
    by_cases hm : a v ≤ ((⌊x⌋ : ℤ) : ℚ)
    · exact Or.inl ((satAll_append_singleton _ _ _ _).mpr ⟨hpar, hm⟩)
    · refine Or.inr ((satAll_append_singleton _ _ _ _).mpr ⟨hpar, ?_⟩)
      have hmz : ¬((m : ℚ) ≤ ((⌊x⌋ : ℤ) : ℚ)) := ham ▸ hm
      have hlt : ⌊x⌋ < m := by exact_mod_cast lt_of_not_le hmz
      have hcl : ⌈x⌉ ≤ m := le_trans (Int.ceil_le_floor_add_one x) hlt
      show ((⌈x⌉ : ℤ) : ℚ) ≤ a v
      rw [ham]
      exact_mod_cast hcl

/-- Witness for C8 at the fractional value 1/2 with a trivial semantics
of the caller constraint: the origin assignment cannot satisfy both
children, and it satisfies one of the two. -/
theorem branch_partition_witness :
    ¬(satAll (fun _ _ => True) (branch_floor nE 0 [1 / 2]).constraints (fun _ => 0) ∧
      satAll (fun _ _ => True) (branch_ceil nE 0 [1 / 2]).constraints (fun _ => 0)) ∧
    (satAll (fun _ _ => True) (branch_floor nE 0 [1 / 2]).constraints (fun _ => 0) ∨
     satAll (fun _ _ => True) (branch_ceil nE 0 [1 / 2]).constraints (fun _ => 0)) :=
  ⟨(branch_partition (fun _ _ => True) nE 0 [1 / 2] (by decide)).1 (fun _ => 0),
   (branch_partition (fun _ _ => True) nE 0 [1 / 2] (by decide)).2 (fun _ => 0) 0
      (by norm_num) (by simp [satAll, Constr.sat, nE])⟩

theorem store_update_getD (l : List (List Constr)) (cs y : List Constr)
    (q : Nat) :
    ((l ++ [cs]).set l.length y).getD q [] =
      if q = l.length then y else l.getD q [] := by
  have hset : (l ++ [cs]).set l.length y = l ++ [y] := by
    rw [List.set_append_right _ _ (le_refl _)]
    simp
  rw [hset]
  by_cases hq : q = l.length
  · subst hq
    simp [List.getD_eq_getElem?_getD, List.getElem?_concat_length]
  · rw [if_neg hq]
    rcases Nat.lt_or_ge q l.length with hlt | hge
    · simp [List.getD_eq_getElem?_getD, List.getElem?_append_left hlt]
    · have hgt : l.length < q := lt_of_le_of_ne hge (Ne.symm hq)
      simp only [List.getD_eq_getElem?_getD]
      rw [List.getElem?_append_right hge,
        List.getElem?_eq_none (by simp; omega),
        List.getElem?_eq_none hge]

/-- C9: branching clones before mutating.  For both children the fresh
problem is distinct from the parent problem, its collection is the parent
collection plus exactly the one added bound, the parent collection is
unchanged, and the collection of every other problem (any sibling in
particular) is unchanged. -/
theorem clone_isolation (s : PicosStore) (pid v : Nat) (x : ℚ)
    (h : pid < s.probs.length) :
    ((branchFloorS s pid v x).2 ≠ pid ∧
     (branchFloorS s pid v x).1.probs.getD pid [] = s.probs.getD pid [] ∧
     (branchFloorS s pid v x).1.probs.getD (branchFloorS s pid v x).2 [] =
       s.probs.getD pid [] ++ [Constr.le v ⌊x⌋] ∧
     ∀ q, q ≠ (branchFloorS s pid v x).2 →
       (branchFloorS s pid v x).1.probs.getD q [] = s.probs.getD q [])
    ∧ ((branchCeilS s pid v x).2 ≠ pid ∧
     (branchCeilS s pid v x).1.probs.getD pid [] = s.probs.getD pid [] ∧
     (branchCeilS s pid v x).1.probs.getD (branchCeilS s pid v x).2 [] =
       s.probs.getD pid [] ++ [Constr.ge v ⌈x⌉] ∧
     ∀ q, q ≠ (branchCeilS s pid v x).2 →
       (branchCeilS s pid v x).1.probs.getD q [] = s.probs.getD q []) := by
  have hgetD : (s.probs ++ [s.probs.getD pid []]).getD s.probs.length [] =
      s.probs.getD pid [] := by
    simp [List.getD_eq_getElem?_getD, List.getElem?_concat_length]
  refine ⟨⟨(ne_of_lt h).symm, ?_, ?_, ?_⟩, ⟨(ne_of_lt h).symm, ?_, ?_, ?_⟩⟩
  · simp only [branchFloorS, cloneProb, add_constraint, hgetD]
    rw [store_update_getD, if_neg (ne_of_lt h)]
  · simp only [branchFloorS, cloneProb, add_constraint, hgetD]
    rw [store_update_getD, if_pos rfl]
  · intro q hq
    simp only [branchFloorS, cloneProb, add_constraint, hgetD] at hq ⊢
    rw [store_update_getD, if_neg hq]
  · simp only [branchCeilS, cloneProb, add_constraint, hgetD]
    rw [store_update_getD, if_neg (ne_of_lt h)]
  · simp only [branchCeilS, cloneProb, add_constraint, hgetD]
    rw [store_update_getD, if_pos rfl]
  · intro q hq
    simp only [branchCeilS, cloneProb, add_constraint, hgetD] at hq ⊢
    rw [store_update_getD, if_neg hq]

/-- Witness for C9 on a one-problem store holding one caller constraint,
branching on the fractional value 1/2. -/
theorem clone_isolation_witness :
    (branchFloorS sF 0 0 (1 / 2)).2 ≠ 0 ∧
    (branchFloorS sF 0 0 (1 / 2)).1.probs.getD 0 [] = sF.probs.getD 0 [] ∧
    (branchCeilS sF 0 0 (1 / 2)).1.probs.getD 0 [] = sF.probs.getD 0 [] :=
  ⟨(clone_isolation sF 0 0 (1 / 2) (by decide)).1.1,
   (clone_isolation sF 0 0 (1 / 2) (by decide)).1.2.1,
   (clone_isolation sF 0 0 (1 / 2) (by decide)).2.2.1⟩

/-
C2.  The claim says each feasible child is pushed with priority key equal
to the freshly solved relaxation objective value of that child.  Lines
158 and 164 push (bestres, next(counter), child): the key is the CURRENT
INCUMBENT at push time, not the child value.
-/

/-- C2 counterexample: in run C the root expansion solves the floor child
to objective value 4 and the ceiling child to objective value 3, yet both
are pushed with the incumbent sentinel -1e20 as their key. -/
theorem child_key_counterexample :
    bbInit oracleC rootC = .ok sC0 ∧
    bbIter oracleC sC0 = some sC1 ∧
    sC1.heap = [(initBest, 1, n1C), (initBest, 2, n2C)] ∧
    oracleC n1C.constraints = .optimal [-(1 / 2), 4] ∧
    oracleC n2C.constraints = .optimal [1, 3] ∧
    initBest ≠ 4 ∧ initBest ≠ 3 := by decide

/-- C2 (amended): when an iteration expands a popped node, every entry of
the resulting frontier is either an old entry or carries as its key the
incumbent bestres as it was at push time - never the child value. -/
theorem child_key_is_incumbent (oracle : Oracle) (s s' : LoopState) (k : ℚ)
    (c : Nat) (node : BBTreeNode) (rest : List HeapEntry)
    (hpop : popMin s.heap = some ((k, c, node), rest))
    (hint : is_integral node.vars (s.vals.map some) = false)
    (hgt : s.bestres < objValOf node s.vals)
    (hstep : bbIter oracle s = some s') :
    ∀ e ∈ s'.heap, e ∈ rest ∨ e.1 = s.bestres := by
  unfold bbIter at hstep
  rw [hpop] at hstep
  simp only [hint, hgt, Bool.false_eq_true, if_false, if_true] at hstep
  obtain rfl := Option.some.inj hstep
  intro e he
  rcases pushChild_heap_mem _ _ _ _ e he with h2 | h2
  · rcases pushChild_heap_mem _ _ _ _ e h2 with h3 | h3
    · exact Or.inl h3
    · exact Or.inr h3.1
  · exact Or.inr h2.1

/-- Witness for the amended C2 theorem on the root expansion of run C,
instantiated at the pushed floor-child entry. -/
theorem child_key_is_incumbent_witness :
    ((initBest, 1, n1C) : HeapEntry) ∈ ([] : List HeapEntry) ∨
      ((initBest, 1, n1C) : HeapEntry).1 = sC0.bestres :=
  child_key_is_incumbent oracleC sC0 sC1 0 0 rootC [] (by decide) (by decide)
    (by decide) (by decide) (initBest, 1, n1C) (by decide)

/-
C5.  The claim says a popped non-integral node is expanded iff ITS OWN
relaxation objective value beats the incumbent.  The code reads
thisres.objective.value and tests is_integral against the SHARED cached
valuation, which belongs to the most recently solved problem - in
general a different node than the popped one.
-/

/-- C5 counterexample: in run C the second iteration pops the floor
child, whose own relaxation is non-integral at x = -1/2 with objective
value 4, strictly above the incumbent -1e20, so by the claim it must be
expanded (two further oracle calls).  Instead the iteration performs no
oracle call at all: the shared cached valuation (1, 3) left by the
ceiling child solve is integral, so the popped node is treated as an
integral node and the incumbent becomes 3. -/
theorem prune_by_cached_value_counterexample :
    bbInit oracleC rootC = .ok sC0 ∧
    bbIter oracleC sC0 = some sC1 ∧
    bbIter oracleC sC1 = some sC2 ∧
    popMin sC1.heap = some ((initBest, 1, n1C), [(initBest, 2, n2C)]) ∧
    oracleC n1C.constraints = .optimal [-(1 / 2), 4] ∧
    is_integral n1C.vars (([-(1 / 2), 4] : List ℚ).map some) = false ∧
    sC1.bestres < 4 ∧
    sC2.ncalls = sC1.ncalls ∧
    sC2.heap = [(initBest, 2, n2C)] ∧
    sC2.bestres = 3 := by decide

/-- C5 (amended): when the CACHED valuation is non-integral, the popped
node is expanded (exactly the two child solves are attempted) iff the
CACHED objective value is strictly greater than the incumbent; otherwise
the iteration only removes the popped entry and changes nothing else -
no oracle call, no incumbent or valuation change. -/
theorem expand_prune_characterization (oracle : Oracle) (s s' : LoopState)
    (k : ℚ) (c : Nat) (node : BBTreeNode) (rest : List HeapEntry)
    (hpop : popMin s.heap = some ((k, c, node), rest))
    (hint : is_integral node.vars (s.vals.map some) = false)
    (hstep : bbIter oracle s = some s') :
    (s.bestres < objValOf node s.vals → s'.ncalls = s.ncalls + 2)
    ∧ (¬s.bestres < objValOf node s.vals → s' = { s with heap := rest }) := by
  unfold bbIter at hstep
  rw [hpop] at hstep
  simp only [hint, Bool.false_eq_true, if_false] at hstep
  by_cases hgt : s.bestres < objValOf node s.vals
  · simp only [hgt, if_true] at hstep
    obtain rfl := Option.some.inj hstep
    refine ⟨fun _ => ?_, fun hn => absurd hgt hn⟩
    rw [pushChild_ncalls, pushChild_ncalls]
  · simp only [if_neg hgt] at hstep
    obtain rfl := Option.some.inj hstep
    exact ⟨fun hg => absurd hg hgt, fun _ => rfl⟩

/-- Witness for the amended C5 theorem: the root expansion of run C makes
exactly two oracle calls. -/
theorem expand_prune_characterization_witness :
    sC1.ncalls = sC0.ncalls + 2 :=
  (expand_prune_characterization oracleC sC0 sC1 0 0 rootC [] (by decide)
      (by decide) (by decide)).1 (by decide)

/-
C1.  The claim says the incumbent is monotonically non-decreasing and
only changes via a strictly greater integral candidate.  Lines 136-138
overwrite bestres unconditionally whenever the popped node tests as
integral: there is no comparison at all, so an integral relaxation value
below the -1e20 sentinel DECREASES the incumbent.
-/

/-- One loop iteration preserves the sharing of the variable list and of
the objective id across the incumbent holder and every frontier node
(children are built by branching, which keeps both). -/
theorem bbIter_shared_inv (oracle : Oracle) (rv : List Nat) (ro : Nat)
    (s s' : LoopState) (h1 : s.bestnodeVars = rv)
    (h2 : ∀ e ∈ s.heap, (e.2.2 : BBTreeNode).vars = rv ∧ e.2.2.objective = ro)
    (hstep : bbIter oracle s = some s') :
    s'.bestnodeVars = rv ∧
      ∀ e ∈ s'.heap, (e.2.2 : BBTreeNode).vars = rv ∧ e.2.2.objective = ro := by
  cases hpop : popMin s.heap with
  | none =>
    unfold bbIter at hstep
    rw [hpop] at hstep
    exact absurd hstep (by simp)
  | some pr =>
    obtain ⟨⟨k, c, node⟩, rest⟩ := pr
    obtain ⟨hmem, _, hsub⟩ := popMin_spec hpop
    have hnode := h2 _ hmem
    unfold bbIter at hstep
    rw [hpop] at hstep
    by_cases hi : is_integral node.vars (s.vals.map some) = true
    · simp only [hi, if_true] at hstep
      obtain rfl := Option.some.inj hstep
      exact ⟨hnode.1, fun e he => h2 e (hsub e he)⟩
    · have hi' : is_integral node.vars (s.vals.map some) = false :=
        Bool.not_eq_true _ ▸ hi
      simp only [hi', Bool.false_eq_true, if_false] at hstep
      by_cases hgt : s.bestres < objValOf node s.vals
      · simp only [hgt, if_true] at hstep
        obtain rfl := Option.some.inj hstep
        constructor
        · rw [pushChild_bestnodeVars, pushChild_bestnodeVars]
          exact h1
        · intro e he
          rcases pushChild_heap_mem _ _ _ _ e he with he2 | he2
          · rcases pushChild_heap_mem _ _ _ _ e he2 with he3 | he3
            · exact h2 e (hsub e he3)
            · rw [he3.2]; exact ⟨hnode.1, hnode.2⟩
          · rw [he2.2]; exact ⟨hnode.1, hnode.2⟩
      · simp only [if_neg hgt] at hstep
        obtain rfl := Option.some.inj hstep
        exact ⟨h1, fun e he => h2 e (hsub e he)⟩

/-- C1 counterexample: a run whose root relaxation is integral with
objective value -2e20 makes the incumbent strictly DECREASE from the
sentinel -1e20 to -2e20, and that update was not strictly improving. -/
theorem bestres_decreases_counterexample :
    bbInit oracleA rootA = .ok sA0 ∧
    bbIter oracleA sA0 = some sA1 ∧
    sA1.bestres < sA0.bestres := by decide

/-- C1 (amended): under the run invariants (every node shares the
variable list and objective id; the incumbent is either the sentinel or
the cached objective value of an integral cached valuation), one
iteration preserves the invariants, and the incumbent VALUE changes only
when it still is the sentinel and the cached valuation is integral, in
which case it is overwritten with the cached objective value without any
comparison; consequently it changes value at most once per run, and
that single change can decrease it (see the counterexample). -/
theorem incumbent_update_characterization (oracle : Oracle) (rv : List Nat)
    (ro : Nat) (s s' : LoopState) (h1 : s.bestnodeVars = rv)
    (h2 : ∀ e ∈ s.heap, (e.2.2 : BBTreeNode).vars = rv ∧ e.2.2.objective = ro)
    (hinc : s.bestres = initBest ∨
      (is_integral rv (s.vals.map some) = true ∧ s.bestres = s.vals.getD ro 0))
    (hstep : bbIter oracle s = some s') :
    (s'.bestnodeVars = rv ∧
      ∀ e ∈ s'.heap, (e.2.2 : BBTreeNode).vars = rv ∧ e.2.2.objective = ro)
    ∧ (s'.bestres = initBest ∨
      (is_integral rv (s'.vals.map some) = true ∧ s'.bestres = s'.vals.getD ro 0))
    ∧ (s'.bestres ≠ s.bestres →
      s.bestres = initBest ∧ is_integral rv (s.vals.map some) = true ∧
        s'.bestres = s.vals.getD ro 0) := by
  refine ⟨bbIter_shared_inv oracle rv ro s s' h1 h2 hstep, ?_⟩
  cases hpop : popMin s.heap with
  | none =>
    unfold bbIter at hstep
    rw [hpop] at hstep
    exact absurd hstep (by simp)
  | some pr =>
    obtain ⟨⟨k, c, node⟩, rest⟩ := pr
    obtain ⟨hmem, _, _⟩ := popMin_spec hpop
    have hnode := h2 _ hmem
    unfold bbIter at hstep
    rw [hpop] at hstep
    by_cases hi : is_integral node.vars (s.vals.map some) = true
    · simp only [hi, if_true] at hstep
      obtain rfl := Option.some.inj hstep
      have hio : is_integral rv (s.vals.map some) = true := hnode.1 ▸ hi
      have hov : objValOf node s.vals = s.vals.getD ro 0 := by
        unfold objValOf
        rw [hnode.2]
      refine ⟨Or.inr ⟨hio, hov⟩, fun hne => ⟨?_, hio, hov⟩⟩
      rcases hinc with hbi | ⟨_, hbe⟩
      · exact hbi
      · exact absurd (hov.trans hbe.symm) hne
    · have hi' : is_integral node.vars (s.vals.map some) = false :=
        Bool.not_eq_true _ ▸ hi
      simp only [hi', Bool.false_eq_true, if_false] at hstep
      by_cases hgt : s.bestres < objValOf node s.vals
      · simp only [hgt, if_true] at hstep
        obtain rfl := Option.some.inj hstep
        have hbr : (pushChild oracle s.bestres
            (branch_ceil node (selectBranchVar node.vars s.vals) s.vals)
            (pushChild oracle s.bestres
              (branch_floor node (selectBranchVar node.vars s.vals) s.vals)
              { s with heap := rest })).bestres = s.bestres := by
          rw [pushChild_bestres, pushChild_bestres]
        refine ⟨?_, fun hne => absurd hbr hne⟩
        rcases hinc with hbi | ⟨hii, _⟩
        · exact Or.inl (hbr.trans hbi)
        · exact absurd (hnode.1.symm ▸ hii) (by simp [hi'])
      · simp only [if_neg hgt] at hstep
        obtain rfl := Option.some.inj hstep
        exact ⟨hinc, fun hne => absurd rfl hne⟩

/-- Witness for the amended C1 theorem on the single iteration of run A,
whose incumbent change is exactly the unconditional overwrite with the
cached objective value. -/
theorem incumbent_update_characterization_witness :
    sA0.bestres = initBest ∧ is_integral [0, 1] (sA0.vals.map some) = true ∧
      sA1.bestres = sA0.vals.getD 1 0 :=
  (incumbent_update_characterization oracleA [0, 1] 1 sA0 sA1 (by decide)
      (by decide) (Or.inl (by decide)) (by decide)).2.2 (by decide)

/-
C4.  The claim says an Infeasible or SolverError root relaxation makes
the search terminate with a well-formed no-solution outcome and never
raise.  The root solve at line 120 has no try/except, so the raised
failure propagates out of bbsolve; the embedding makes bbsolve return
Except.error there (a raised exception), never a no-solution value.
-/

/-- C4: with the Scenario B root (x >= 5 and x <= 1, an infeasible
region) the search raises: for every fuel, bbsolve is the propagated
exception, not a well-formed no-solution result; the same holds for
a SolverError root.  The code is at odds with the claim here. -/
theorem root_infeasible_raises :
    oracleB rootB.constraints = OracleResult.infeasible ∧
    (∀ fuel, bbsolve oracleB rootB fuel = Except.error ()) ∧
    (∀ fuel, bbsolve (fun _ => OracleResult.solverError) rootB fuel =
      Except.error ()) := by
  refine ⟨by decide, fun fuel => ?_, fun fuel => ?_⟩ <;> rfl

/-
C10.  bbsolve returns bestnode_vars, which is always the very variable
list of the root node: __deepcopy__ passes self.vars through, so every
frontier node shares it, and lines 127 and 138 only ever bind
bestnode_vars to such a shared list.  The values those variable objects
carry at return time are the ones written by the most recent solve (the
final cached valuation of the embedding), not a snapshot taken when the
incumbent was recorded.
-/

/-- The loop returns the shared variable list: if every frontier node
carries the root variable list and objective id and bestnode_vars is
that list, then whatever the loop returns as bestnode_vars is that
list. -/
theorem bbLoop_vars (oracle : Oracle) (rv : List Nat) (ro : Nat) :
    ∀ (fuel : Nat) (s : LoopState), s.bestnodeVars = rv →
      (∀ e ∈ s.heap, (e.2.2 : BBTreeNode).vars = rv ∧ e.2.2.objective = ro) →
      ∀ r vs fv, bbLoop oracle fuel s = some (r, vs, fv) → vs = rv := by
  intro fuel
  induction fuel with
  | zero =>
    intro s _ _ r vs fv h
    simp [bbLoop] at h
  | succ m ih =>
    intro s h1 h2 r vs fv h
    unfold bbLoop at h
    cases hstep : bbIter oracle s with
    | none =>
      rw [hstep] at h
      simp only [Option.some.injEq, Prod.mk.injEq] at h
      rw [← h.2.1]
      exact h1
    | some s2 =>
      rw [hstep] at h
      have hinv := bbIter_shared_inv oracle rv ro s s2 h1 h2 hstep
      exact ih s2 hinv.1 hinv.2 r vs fv h

/-- C10: whenever bbsolve returns a triple, the returned bestnode_vars
IS the root variable list (the shared objects), and branching preserves
the variable list of a node; the returned per-variable values are the
final cached valuation, i.e. those left by the most recent solve. -/
theorem returned_vars_are_root_vars (oracle : Oracle) (root : BBTreeNode)
    (fuel : Nat) (r : ℚ) (vs : List Nat) (fv : List ℚ)
    (h : bbsolve oracle root fuel = .ok (some (r, vs, fv))) :
    vs = root.vars ∧ ∀ (n : BBTreeNode) (v : Nat) (w : List ℚ),
      (branch_floor n v w).vars = n.vars ∧ (branch_ceil n v w).vars = n.vars := by
  refine ⟨?_, fun n v w => ⟨rfl, rfl⟩⟩
  unfold bbsolve bbInit at h
  cases ho : oracle root.constraints with
  | optimal v =>
    rw [ho] at h
    simp only [Except.ok.injEq] at h
    exact bbLoop_vars oracle root.vars root.objective fuel _ rfl (by simp)
      r vs fv h
  | infeasible => rw [ho] at h; exact absurd h (by simp)
  | solverError => rw [ho] at h; exact absurd h (by simp)

/-- Witness for C10 on the full run C, which returns with incumbent 3,
the root variable list and the final cached valuation (1, 3); the
branching part is instantiated at the root. -/
theorem returned_vars_are_root_vars_witness :
    ([0, 1] : List Nat) = rootC.vars ∧
      ((branch_floor rootC 0 [1 / 2]).vars = rootC.vars ∧
       (branch_ceil rootC 0 [1 / 2]).vars = rootC.vars) :=
  ⟨(returned_vars_are_root_vars oracleC rootC 4 3 [0, 1] [1, 3] (by decide)).1,
   (returned_vars_are_root_vars oracleC rootC 4 3 [0, 1] [1, 3] (by decide)).2
      rootC 0 [1 / 2]⟩

end BaB
